import Mathlib

/-!
Verification of the anki-italian-verbs repository against its specification.

The development shallowly embeds the parts of the Python source that the
spec talks about:

* `data_types.py` — the `VerbPackage` dataclass (all fields are strings;
  the `subject` field has a default that was sampled once, at class
  definition time, from the subject list; we model that single sampled
  value as an explicit parameter `defaultSubject`).
* `utils.py` / `create_content.py` — `get_conjugation_from_disk` (the two
  copies are line-for-line identical for this function), modelled as a
  state-passing function over the JSON cache file.  The file content is an
  association list with distinct keys (a JSON object); values are either a
  plain string or a nested one-level object, because the branch of
  `get_conjugation_from_disk` taken when the file does not exist writes
  `conjugations[verb] = tense-to-text-object` while the miss branch taken
  when the file exists writes `conjugations[verb + " " + tense] = text`.
  The text-generation backend is an opaque oracle `oracle : VerbPackage → String`.
* `create_deck.py` — `build_note_list` (thread-pool map over
  `create_flashcard_pair`, then `create_note`, then `random.shuffle`) and
  `build_verb_package_list` (triple nested loop over verbs, tenses,
  persons).
* `create_content.py` — `create_cloze` / `create_flashcard_cloze` (the
  spacy-based cloze builder; the spacy parse is an opaque oracle
  `parse : String → List Token`), and the tenacity retry decorators.
* `utils.py` — `get_wikipedia_link_for_subject`.

Python-to-Lean conventions used throughout: machine-level IO is replaced
by explicit state passing; a Python exception escaping a function is
`Option.none`; `random.shuffle` and `random.choice` receive their random
choices as explicit arguments; external services (OpenAI, AWS translate,
spacy) are opaque function parameters.
-/

namespace AnkiVerbs

/-- The `VerbPackage` dataclass of `data_types.py`.  All fields are strings. -/
structure VerbPackage where
  verb : String
  tense : String
  person : String
  subject : String
  sentence : String := ""
  flashcard_cloze : String := ""
  flashcard_extra : String := ""
  verb_conjugated : String := ""
  deriving DecidableEq, Repr

/-! ## The conjugation cache (`get_conjugation_from_disk`)

The cache file holds one JSON object.  Its values are strings, except for
the entry written by the no-file branch, which is a one-level nested
object mapping a tense to a string.  JSON objects have distinct keys;
`json.load` of a file produced by `json.dump` of a Python dict gives back
the same key-value association, so we model the object as an association
list. -/

/-- A value stored in the conjugation cache JSON object: either a plain
conjugation string, or the nested tense-to-string object written by the
branch of `get_conjugation_from_disk` that runs when the file is absent. -/
inductive CacheVal where
  | str (s : String)
  | obj (m : List (String × String))
  deriving DecidableEq, Repr

/-- The parsed content of `conjugations.txt`: a JSON object, i.e. an
association list with distinct keys. -/
abbrev Cache := List (String × CacheVal)

/-- First-match association lookup, the semantics of `d[k]` on a JSON
object parsed from disk. -/
def lookupA (k : String) : Cache → Option CacheVal
  | [] => none
  | (k', v) :: m => if k' = k then some v else lookupA k m

/-- Python dict assignment `d[k] = v`: overwrite in place when the key is
present, append otherwise. -/
def insertA (k : String) (v : CacheVal) (m : Cache) : Cache :=
  if (lookupA k m).isSome then
    m.map (fun kv => if kv.1 = k then (k, v) else kv)
  else
    m ++ [(k, v)]

/-- Result of one `get_conjugation_from_disk` call: the value the call
returns (`value`), the cache-file state after the call (`state`, `none`
when the file does not exist), and whether the call invoked the
text-generation backend (`llmCalled`). -/
structure CallResult where
  value : CacheVal
  state : Option Cache
  llmCalled : Bool
  deriving DecidableEq, Repr

/-- The cache key `verb_package.verb + " " + verb_package.tense` used by
`get_conjugation_from_disk` for lookup and for the flat write. -/
def cacheKey (vp : VerbPackage) : String :=
  vp.verb ++ " " ++ vp.tense

/-- `get_conjugation_from_disk` of `utils.py` lines 53-85 (the copy in
`create_content.py` lines 272-304 is identical), with the cache file as
explicit state and the LLM as an oracle.  When the file exists and the key
is found, the stored value is returned with no write and no LLM call
(note that a stored nested object would be returned as-is: Python does not
check the value type).  On `KeyError` the oracle result is stored under
the flat key `verb + " " + tense`.  When the file does not exist, the
oracle result is stored as `conjugations[verb] = (tense ↦ text)` — a
nested object keyed by the verb alone. -/
def get_conjugation_from_disk (oracle : VerbPackage → String)
    (vp : VerbPackage) (st : Option Cache) : CallResult :=
  match st with
  | some conjugations =>
    match lookupA (cacheKey vp) conjugations with
    | some v => ⟨v, some conjugations, false⟩
    | none =>
      let conjugation := oracle vp
      ⟨.str conjugation,
       some (insertA (cacheKey vp) (.str conjugation) conjugations), true⟩
  | none =>
    let conjugation := oracle vp
    ⟨.str conjugation, some [(vp.verb, .obj [(vp.tense, conjugation)])], true⟩

/-- A fixed concrete oracle used for concrete executions. -/
def oracle0 : VerbPackage → String := fun vp => "conj:" ++ vp.verb

/-- A concrete verb package: the avere/essere-style example from the spec. -/
def vpEssere : VerbPackage :=
  { verb := "essere", tense := "Presente", person := "1st person singular",
    subject := "Roman history" }

/-- C1: starting with no cache file, the first call stores the result
nested under the verb key, so the second call with the same (verb, tense)
pair misses again and issues a second text-generation request. -/
theorem c1_cache_second_call_hits_llm :
    (get_conjugation_from_disk oracle0 vpEssere none).llmCalled = true ∧
    (get_conjugation_from_disk oracle0 vpEssere
        (get_conjugation_from_disk oracle0 vpEssere none).state).llmCalled =
      true ∧
    (get_conjugation_from_disk oracle0 vpEssere
        (get_conjugation_from_disk oracle0 vpEssere none).state).value =
      (get_conjugation_from_disk oracle0 vpEssere none).value ∧
    (get_conjugation_from_disk oracle0 vpEssere none).state =
      some [("essere", .obj [("Presente", "conj:essere")])] := by
  refine ⟨rfl, ?_, by decide, rfl⟩
  decide

/-! ### C2: the cache invariant -/

/-- Number of entries of the persisted object that represent the pair
`(v, t)`: a string entry under the flat composite key `v ++ " " ++ t`, or
a nested entry under the key `v` whose object binds `t`. -/
def entriesFor (v t : String) (m : Cache) : Nat :=
  (m.filter (fun kv =>
    match kv with
    | (k, .str _) => k = v ++ " " ++ t
    | (k, .obj o) => k = v ∧ (o.map Prod.fst).contains t)).length

/-- Run a sequence of `get_conjugation_from_disk` calls, threading the
cache-file state. -/
def runCalls (oracle : VerbPackage → String) (vps : List VerbPackage)
    (st : Option Cache) : Option Cache :=
  vps.foldl (fun s vp => (get_conjugation_from_disk oracle vp s).state) st

/-- Well-formedness of a cache-file state: a JSON object has distinct keys. -/
def cacheWF : Option Cache → Prop
  | none => True
  | some m => (m.map Prod.fst).Nodup

/-- C2 counterexample: starting with no cache file, two calls on the same
(verb, tense) pair leave a persisted map with two entries representing
that pair — one nested under the verb key (from the no-file branch) and
one under the flat composite key (from the miss branch). -/
theorem c2_two_entries_for_one_pair :
    runCalls oracle0 [vpEssere, vpEssere] none =
      some [("essere", .obj [("Presente", "conj:essere")]),
            ("essere Presente", .str "conj:essere")] ∧
    entriesFor "essere" "Presente"
      [("essere", .obj [("Presente", "conj:essere")]),
       ("essere Presente", .str "conj:essere")] = 2 := by
  constructor
  · decide
  · decide

theorem lookupA_append_of_ne {k k' : String} {v : CacheVal} {m : Cache}
    (h : k' ≠ k) : lookupA k' (m ++ [(k, v)]) = lookupA k' m := by
  induction m with
  | nil => simp [lookupA, Ne.symm h]
  | cons kv m ih =>
    by_cases hk : kv.1 = k'
    · simp [lookupA, hk]
    · simp [lookupA, hk, ih]

theorem lookupA_append_self {k : String} {v : CacheVal} {m : Cache}
    (h : lookupA k m = none) : lookupA k (m ++ [(k, v)]) = some v := by
  induction m with
  | nil => simp [lookupA]
  | cons kv m ih =>
    by_cases hk : kv.1 = k
    · simp [lookupA, hk] at h
    · simp [lookupA, hk] at h
      simp [lookupA, hk, ih h]

theorem lookupA_none_not_mem {k : String} {m : Cache}
    (h : lookupA k m = none) : k ∉ m.map Prod.fst := by
  induction m with
  | nil => simp
  | cons kv m ih =>
    by_cases hk : kv.1 = k
    · simp [lookupA, hk] at h
    · simp only [lookupA, if_neg hk] at h
      simp only [List.map_cons, List.mem_cons]
      rintro (rfl | hmem)
      · exact hk rfl
      · exact ih h hmem

theorem cacheWF_step (oracle : VerbPackage → String) (vp : VerbPackage)
    (st : Option Cache) (h : cacheWF st) :
    cacheWF (get_conjugation_from_disk oracle vp st).state := by
  match st with
  | none =>
    simp [get_conjugation_from_disk, cacheWF]
  | some m =>
    simp only [get_conjugation_from_disk]
    cases hl : lookupA (cacheKey vp) m with
    | some v => exact h
    | none =>
      simp only [cacheWF, insertA, hl, Option.isSome_none, Bool.false_eq_true,
        if_false, List.map_append, List.map_cons, List.map_nil]
      exact List.Nodup.append h (List.nodup_singleton _)
        (by
          intro a ha hb
          simp only [List.mem_singleton] at hb
          subst hb
          exact lookupA_none_not_mem hl ha)

/-- C2 (amended): along any call sequence the persisted JSON object keeps
distinct keys (at most one entry per key string), and each miss on an
existing file rewrites the file to exactly the full loaded map extended
with the one new flat entry — every old binding survives the rewrite. -/
theorem c2_cache_invariant (oracle : VerbPackage → String)
    (vps : List VerbPackage) (init : Option Cache) (h : cacheWF init) :
    cacheWF (runCalls oracle vps init) ∧
    (∀ vp : VerbPackage, ∀ m : Cache,
      lookupA (cacheKey vp) m = none →
      (get_conjugation_from_disk oracle vp (some m)).state =
        some (m ++ [(cacheKey vp, .str (oracle vp))]) ∧
      (∀ k, k ≠ cacheKey vp →
        lookupA k (m ++ [(cacheKey vp, .str (oracle vp))]) = lookupA k m) ∧
      lookupA (cacheKey vp) (m ++ [(cacheKey vp, .str (oracle vp))]) =
        some (.str (oracle vp))) := by
  constructor
  · induction vps generalizing init with
    | nil => exact h
    | cons vp vps ih =>
      exact ih _ (cacheWF_step oracle vp init h)
  · intro vp m hmiss
    refine ⟨?_, ?_, lookupA_append_self hmiss⟩
    · simp [get_conjugation_from_disk, insertA, hmiss]
    · intro k hk
      exact lookupA_append_of_ne hk

/-- Witness for `c2_cache_invariant` at a concrete call sequence. -/
theorem c2_cache_invariant_witness :
    cacheWF (runCalls oracle0 [vpEssere, vpEssere] none) ∧
    (∀ vp : VerbPackage, ∀ m : Cache,
      lookupA (cacheKey vp) m = none →
      (get_conjugation_from_disk oracle0 vp (some m)).state =
        some (m ++ [(cacheKey vp, .str (oracle0 vp))]) ∧
      (∀ k, k ≠ cacheKey vp →
        lookupA k (m ++ [(cacheKey vp, .str (oracle0 vp))]) = lookupA k m) ∧
      lookupA (cacheKey vp) (m ++ [(cacheKey vp, .str (oracle0 vp))]) =
        some (.str (oracle0 vp))) :=
  c2_cache_invariant oracle0 [vpEssere, vpEssere] none trivial

/-! ### C3: concurrent cache misses

`build_note_list` runs `create_flashcard_pair` on up to `MAX_WORKERS = 20`
threads; each worker that misses the cache executes the miss path of
`get_conjugation_from_disk` on the shared file: it loads the whole file,
adds its entry to the loaded snapshot, and rewrites the file from that
snapshot.  There is no lock, so the load and the rewrite are separate
atomic steps that other workers can interleave with.  We model a worker
as a two-step program (read, then write) over the shared file state. -/

/-- The control state of one worker executing the miss path: it has not
read the file yet, it holds the snapshot it loaded, or it has written. -/
inductive WStatus where
  | idle
  | loaded (snap : Cache)
  | finished
  deriving DecidableEq, Repr

/-- One step of a worker that will add `(k, v)`: reading snapshots the
shared file; writing replaces the file with its snapshot extended by its
own entry (the `json.dump` of the whole in-memory dict). -/
def wstep (k : String) (c : String) (file : Cache) :
    WStatus → Cache × WStatus
  | .idle => (file, .loaded file)
  | .loaded snap => (insertA k (.str c) snap, .finished)
  | .finished => (file, .finished)

/-- The shared state: the cache file plus the two workers. -/
structure Sys where
  file : Cache
  w1 : WStatus
  w2 : WStatus
  deriving DecidableEq, Repr

/-- Scheduler step: `true` advances worker 1, `false` advances worker 2. -/
def sstep (k1 c1 k2 c2 : String) (s : Sys) (who : Bool) : Sys :=
  if who then
    let (f, w) := wstep k1 c1 s.file s.w1
    { s with file := f, w1 := w }
  else
    let (f, w) := wstep k2 c2 s.file s.w2
    { s with file := f, w2 := w }

/-- Run a schedule (a list of scheduler choices) from an initial state. -/
def runSched (k1 c1 k2 c2 : String) (init : Sys) (sched : List Bool) : Sys :=
  sched.foldl (sstep k1 c1 k2 c2) init

/-- C3 counterexample: on the interleaving read₁, read₂, write₁, write₂
from an empty cache file, both workers complete, yet the final file holds
only the entry of worker 2 — the update of worker 1 is lost. -/
theorem c3_lost_update :
    let final := runSched "essere Presente" "c1" "avere Presente" "c2"
      ⟨[], .idle, .idle⟩ [true, false, true, false]
    final.w1 = .finished ∧ final.w2 = .finished ∧
      final.file = [("avere Presente", .str "c2")] ∧
      lookupA "essere Presente" final.file = none := by
  exact ⟨rfl, rfl, rfl, by decide⟩

/-- C3 (amended): when the two read-modify-write sequences do not
interleave (either serial schedule), both new entries are durably
persisted; the loss arises only on schedules where both workers read
before either writes (exhibited by the counterexample above). -/
theorem c3_serial_no_lost_update (m0 : Cache) (k1 c1 k2 c2 : String)
    (hne : k1 ≠ k2) (h1 : lookupA k1 m0 = none) (h2 : lookupA k2 m0 = none) :
    (let final := runSched k1 c1 k2 c2 ⟨m0, .idle, .idle⟩
        [true, true, false, false]
     final.w1 = .finished ∧ final.w2 = .finished ∧
       lookupA k1 final.file = some (.str c1) ∧
       lookupA k2 final.file = some (.str c2)) ∧
    (let final := runSched k1 c1 k2 c2 ⟨m0, .idle, .idle⟩
        [false, false, true, true]
     final.w1 = .finished ∧ final.w2 = .finished ∧
       lookupA k1 final.file = some (.str c1) ∧
       lookupA k2 final.file = some (.str c2)) := by
  have ins1 : insertA k1 (.str c1) m0 = m0 ++ [(k1, .str c1)] := by
    simp [insertA, h1]
  have ins2 : insertA k2 (.str c2) m0 = m0 ++ [(k2, .str c2)] := by
    simp [insertA, h2]
  have h2' : lookupA k2 (m0 ++ [(k1, .str c1)]) = none := by
    rw [lookupA_append_of_ne (Ne.symm hne)]; exact h2
  have h1' : lookupA k1 (m0 ++ [(k2, .str c2)]) = none := by
    rw [lookupA_append_of_ne hne]; exact h1
  constructor
  · refine ⟨rfl, rfl, ?_, ?_⟩
    · show lookupA k1 (insertA k2 (.str c2) (insertA k1 (.str c1) m0)) =
        some (.str c1)
      rw [ins1, show insertA k2 (.str c2) (m0 ++ [(k1, .str c1)]) =
          m0 ++ [(k1, .str c1)] ++ [(k2, .str c2)] by simp [insertA, h2'],
        lookupA_append_of_ne hne]
      exact lookupA_append_self h1
    · show lookupA k2 (insertA k2 (.str c2) (insertA k1 (.str c1) m0)) =
        some (.str c2)
      rw [ins1, show insertA k2 (.str c2) (m0 ++ [(k1, .str c1)]) =
          m0 ++ [(k1, .str c1)] ++ [(k2, .str c2)] by simp [insertA, h2']]
      exact lookupA_append_self h2'
  · refine ⟨rfl, rfl, ?_, ?_⟩
    · show lookupA k1 (insertA k1 (.str c1) (insertA k2 (.str c2) m0)) =
        some (.str c1)
      rw [ins2, show insertA k1 (.str c1) (m0 ++ [(k2, .str c2)]) =
          m0 ++ [(k2, .str c2)] ++ [(k1, .str c1)] by simp [insertA, h1']]
      exact lookupA_append_self h1'
    · show lookupA k2 (insertA k1 (.str c1) (insertA k2 (.str c2) m0)) =
        some (.str c2)
      rw [ins2, show insertA k1 (.str c1) (m0 ++ [(k2, .str c2)]) =
          m0 ++ [(k2, .str c2)] ++ [(k1, .str c1)] by simp [insertA, h1'],
        lookupA_append_of_ne (Ne.symm hne)]
      exact lookupA_append_self h2

/-- Witness for `c3_serial_no_lost_update` at concrete keys. -/
theorem c3_serial_no_lost_update_witness :
    ("essere Presente" : String) ≠ "avere Presente" ∧
    ((let final := runSched "essere Presente" "c1" "avere Presente" "c2"
        ⟨[], .idle, .idle⟩ [true, true, false, false]
      final.w1 = .finished ∧ final.w2 = .finished ∧
        lookupA "essere Presente" final.file = some (.str "c1") ∧
        lookupA "avere Presente" final.file = some (.str "c2")) ∧
     (let final := runSched "essere Presente" "c1" "avere Presente" "c2"
        ⟨[], .idle, .idle⟩ [false, false, true, true]
      final.w1 = .finished ∧ final.w2 = .finished ∧
        lookupA "essere Presente" final.file = some (.str "c1") ∧
        lookupA "avere Presente" final.file = some (.str "c2"))) :=
  ⟨by decide,
   c3_serial_no_lost_update [] "essere Presente" "c1" "avere Presente" "c2"
     (by decide) rfl rfl⟩

/-! ### C7: the tenacity retry policy

`utils.py` and `create_content.py` decorate every external call with
`@retry(wait=wait_random_exponential(min=WAIT_MIN, max=WAIT_MAX),
stop=stop_after_attempt(STOP_AFTER))` where `WAIT_MIN = 1`,
`WAIT_MAX = 120`, `STOP_AFTER = 10`; the one exception is
`create_flashcard_extra` (the translate-and-enrich stage), which uses
`wait_random_exponential(min=1, max=60)` and `stop_after_attempt(6)`.
The wait times do not affect the returned value or the attempt count, so
the embedding models the decorated call as: attempt 1, 2, ... until the
wrapped body succeeds or `stop` attempts have been made; the per-attempt
outcome is an oracle `f : Nat → Option α` (`none` = the body raised). -/

/-- Stop bound of the `@retry` decorators in `utils.py` and on
`create_italian_sentence`, from `constants.py` / `create_content.py`. -/
def STOP_AFTER : Nat := 10

/-- Stop bound of the `@retry` decorator on `create_flashcard_extra`. -/
def EXTRA_STOP_AFTER : Nat := 6

/-- `retryAux f remaining used`: run attempts `used+1, used+2, ...` while
attempts remain; return the first success together with the total number
of attempts made. -/
def retryAux (f : Nat → Option α) : Nat → Nat → Option α × Nat
  | 0, used => (none, used)
  | remaining + 1, used =>
    match f (used + 1) with
    | some v => (some v, used + 1)
    | none => retryAux f remaining (used + 1)

/-- A tenacity-decorated call with `stop_after_attempt stop`: up to `stop`
attempts; `none` (the decorator re-raises) if all fail. -/
def retryCall (stop : Nat) (f : Nat → Option α) : Option α × Nat :=
  retryAux f stop 0

theorem retryAux_attempts_le (f : Nat → Option α) :
    ∀ remaining used, (retryAux f remaining used).2 ≤ used + remaining := by
  intro remaining
  induction remaining with
  | zero => intro used; simp [retryAux]
  | succ n ih =>
    intro used
    simp only [retryAux]
    cases f (used + 1) with
    | some v => simp
    | none =>
      have := ih (used + 1)
      simpa using Nat.le_trans this (by omega)

theorem retryAux_first_success (f : Nat → Option α) (k : Nat) (v : α) :
    ∀ remaining used, (∀ i, used < i → i < k → f i = none) → f k = some v →
      used < k → k ≤ used + remaining →
      retryAux f remaining used = (some v, k) := by
  intro remaining
  induction remaining with
  | zero => intro used _ _ hlt hle; omega
  | succ n ih =>
    intro used hnone hk hlt hle
    simp only [retryAux]
    by_cases hcur : used + 1 = k
    · rw [hcur, hk]
    · rw [hnone (used + 1) (by omega) (by omega)]
      exact ih (used + 1) (fun i h1 h2 => hnone i (by omega) h2) hk
        (by omega) (by omega)

/-- C7: if the first three attempts of an external call fail transiently
and attempt `k` (within the stop bound) is the first to succeed, the
decorated call still returns that successful result, having made exactly
`k` attempts; and for every per-attempt behaviour the number of attempts
never exceeds the configured stop bound — `STOP_AFTER = 10` for the
standard call sites and `EXTRA_STOP_AFTER = 6` for the
translate-and-enrich stage. -/
theorem c7_retry_policy {α : Type} (f : Nat → Option α) (k : Nat) (v : α)
    (hk3 : 3 < k) (hfail : ∀ i, 1 ≤ i → i < k → f i = none)
    (hsucc : f k = some v) (hbound : k ≤ STOP_AFTER) :
    retryCall STOP_AFTER f = (some v, k) ∧
    (∀ g : Nat → Option α, (retryCall STOP_AFTER g).2 ≤ STOP_AFTER) ∧
    (∀ g : Nat → Option α,
      (retryCall EXTRA_STOP_AFTER g).2 ≤ EXTRA_STOP_AFTER) := by
  refine ⟨?_, ?_, ?_⟩
  · exact retryAux_first_success f k v STOP_AFTER 0
      (fun i h1 h2 => hfail i (by omega) h2) hsucc (by omega)
      (by simpa using hbound)
  · intro g
    simpa using retryAux_attempts_le g STOP_AFTER 0
  · intro g
    simpa using retryAux_attempts_le g EXTRA_STOP_AFTER 0

/-- Witness for `c7_retry_policy`: the spec scenario — the first three
attempts fail, attempt 4 succeeds. -/
theorem c7_retry_policy_witness :
    retryCall STOP_AFTER
        (fun i => if i ≤ 3 then (none : Option String) else some "ok") =
      (some "ok", 4) ∧
    (∀ g : Nat → Option String, (retryCall STOP_AFTER g).2 ≤ STOP_AFTER) ∧
    (∀ g : Nat → Option String,
      (retryCall EXTRA_STOP_AFTER g).2 ≤ EXTRA_STOP_AFTER) :=
  c7_retry_policy (fun i => if i ≤ 3 then none else some "ok") 4 "ok"
    (by omega)
    (fun i h1 h2 => by
      have : i ≤ 3 := by omega
      simp [this])
    (by norm_num) (by norm_num [STOP_AFTER])

/-! ### C8 and C10: `build_verb_package_list`

`data_types.py` declares `subject: str = choice(subjects)` as a dataclass
field default.  The default expression is evaluated exactly once, when
the class body is executed at import time; every `VerbPackage` created
without an explicit `subject` argument therefore shares that one sampled
string.  The embedding passes that once-sampled string as the explicit
parameter `defaultSubject`. -/

/-- The `VerbPackageList` dataclass of `data_types.py`. -/
structure VerbPackageList where
  name : String
  verb_packages : List VerbPackage
  deriving Repr

/-- `VerbPackage(verb=verb, tense=tense, person=person)` as written in
`build_verb_package_list`: no explicit subject, so the field takes the
class-level default sampled once at import time. -/
def mkVerbPackage (defaultSubject v t p : String) : VerbPackage :=
  { verb := v, tense := t, person := p, subject := defaultSubject }

/-- `build_verb_package_list` of `create_deck.py` lines 115-139: the
triple nested loop over verbs, tenses and persons, appending one
`VerbPackage` per iteration of the innermost loop. -/
def build_verb_package_list (defaultSubject : String) (name : String)
    (verbs tenses persons : List String) : VerbPackageList :=
  { name := name
    verb_packages :=
      verbs.flatMap fun v =>
        tenses.flatMap fun t =>
          persons.map fun p => mkVerbPackage defaultSubject v t p }

/-- The (verb, tense, person) triple a package was built from. -/
def tripleOf (vp : VerbPackage) : String × String × String :=
  (vp.verb, vp.tense, vp.person)

/-- The cross-product list verbs × tenses × persons in loop order. -/
def crossTriples (verbs tenses persons : List String) :
    List (String × String × String) :=
  verbs.flatMap fun v =>
    tenses.flatMap fun t =>
      persons.map fun p => (v, t, p)

theorem build_map_tripleOf (ds name : String)
    (verbs tenses persons : List String) :
    (build_verb_package_list ds name verbs tenses persons).verb_packages.map
        tripleOf =
      crossTriples verbs tenses persons := by
  simp only [build_verb_package_list, crossTriples, List.map_flatMap,
    List.map_map]
  rfl

theorem inner_cross_length (v : String) (tenses persons : List String) :
    (tenses.flatMap fun t => persons.map fun p => (v, t, p)).length =
      tenses.length * persons.length := by
  induction tenses with
  | nil => simp
  | cons t tenses iht =>
    simp only [List.flatMap_cons, List.length_append, iht, List.length_map,
      List.length_cons]
    ring

theorem crossTriples_length (verbs tenses persons : List String) :
    (crossTriples verbs tenses persons).length =
      verbs.length * (tenses.length * persons.length) := by
  induction verbs with
  | nil => simp [crossTriples]
  | cons v verbs ih =>
    simp only [crossTriples, List.flatMap_cons, List.length_append,
      List.length_cons] at *
    rw [ih, inner_cross_length]
    ring

theorem count_map_mk (v' t' v t p : String) (persons : List String) :
    ((persons.map fun p' => (v', t', p')).count (v, t, p)) =
      if v' = v ∧ t' = t then persons.count p else 0 := by
  induction persons with
  | nil => simp
  | cons p' persons ihp =>
    simp only [List.map_cons, List.count_cons, ihp]
    by_cases hv : v' = v
    · by_cases ht : t' = t
      · subst hv; subst ht
        by_cases hp : p' = p
        · simp [hp]
        · simp [hp, Prod.ext_iff]
      · simp [hv, ht, Prod.ext_iff]
    · simp [hv, Prod.ext_iff]

theorem count_inner_cross (v' v t p : String) (tenses persons : List String) :
    ((tenses.flatMap fun t' => persons.map fun p' => (v', t', p')).count
        (v, t, p)) =
      if v' = v then tenses.count t * persons.count p else 0 := by
  induction tenses with
  | nil => simp
  | cons t' tenses ih =>
    simp only [List.flatMap_cons, List.count_append, ih, count_map_mk]
    by_cases hv : v' = v
    · subst hv
      simp only [eq_self_iff_true, true_and, if_true]
      by_cases ht : t' = t
      · subst ht
        simp only [eq_self_iff_true, if_true, List.count_cons_self]
        ring
      · rw [if_neg ht, List.count_cons_of_ne (fun h => ht h.symm)]
        omega
    · simp [hv]

theorem count_crossTriples (verbs tenses persons : List String)
    (v t p : String) :
    (crossTriples verbs tenses persons).count (v, t, p) =
      verbs.count v * (tenses.count t * persons.count p) := by
  induction verbs with
  | nil => simp [crossTriples]
  | cons v' verbs ih =>
    simp only [crossTriples, List.flatMap_cons, List.count_append] at *
    rw [ih, count_inner_cross]
    by_cases hv : v' = v
    · subst hv
      rw [if_pos rfl, List.count_cons_self]
      ring
    · rw [if_neg hv, List.count_cons_of_ne (fun h => hv h.symm)]
      omega

/-- C8: `build_verb_package_list` produces one work item per element of
the cross-product verbs × tenses × persons — `|verbs|·|tenses|·|persons|`
packages, whose (verb, tense, person) projections are exactly the
cross-product in loop order; when the three input lists are
duplicate-free each triple occurs exactly once; and every package is
assigned the subject default. -/
theorem c8_cross_product (ds name : String)
    (verbs tenses persons : List String) :
    ((build_verb_package_list ds name verbs tenses persons).verb_packages.length =
        verbs.length * (tenses.length * persons.length)) ∧
    ((build_verb_package_list ds name verbs tenses persons).verb_packages.map
        tripleOf = crossTriples verbs tenses persons) ∧
    (∀ vp ∈ (build_verb_package_list ds name verbs tenses persons).verb_packages,
      vp.subject = ds) ∧
    (verbs.Nodup → tenses.Nodup → persons.Nodup →
      ∀ v ∈ verbs, ∀ t ∈ tenses, ∀ p ∈ persons,
        ((build_verb_package_list ds name verbs tenses persons).verb_packages.map
            tripleOf).count (v, t, p) = 1) := by
  refine ⟨?_, build_map_tripleOf ds name verbs tenses persons, ?_, ?_⟩
  · have := congrArg List.length (build_map_tripleOf ds name verbs tenses persons)
    simpa [crossTriples_length] using this
  · intro vp hvp
    simp only [build_verb_package_list, List.mem_flatMap, List.mem_map]
      at hvp
    obtain ⟨v, _, t, _, p, _, rfl⟩ := hvp
    rfl
  · intro hv ht hp v hvm t htm p hpm
    rw [build_map_tripleOf, count_crossTriples,
      List.count_eq_one_of_mem hv hvm, List.count_eq_one_of_mem ht htm,
      List.count_eq_one_of_mem hp hpm]

/-- Witness for `c8_cross_product` at concrete duplicate-free lists. -/
theorem c8_cross_product_witness :
    ((build_verb_package_list "Roman history" "deck" ["essere", "avere"]
        ["Presente"] ["1st person singular", "2nd person singular"]).verb_packages.length =
        2 * (1 * 2)) ∧
    ((build_verb_package_list "Roman history" "deck" ["essere", "avere"]
        ["Presente"] ["1st person singular", "2nd person singular"]).verb_packages.map
        tripleOf =
      crossTriples ["essere", "avere"] ["Presente"]
        ["1st person singular", "2nd person singular"]) ∧
    (∀ vp ∈ (build_verb_package_list "Roman history" "deck"
        ["essere", "avere"] ["Presente"]
        ["1st person singular", "2nd person singular"]).verb_packages,
      vp.subject = "Roman history") ∧
    (["essere", "avere"].Nodup → ["Presente"].Nodup →
      ["1st person singular", "2nd person singular"].Nodup →
      ∀ v ∈ ["essere", "avere"], ∀ t ∈ ["Presente"],
        ∀ p ∈ ["1st person singular", "2nd person singular"],
        ((build_verb_package_list "Roman history" "deck" ["essere", "avere"]
            ["Presente"]
            ["1st person singular", "2nd person singular"]).verb_packages.map
            tripleOf).count (v, t, p) = 1) :=
  c8_cross_product "Roman history" "deck" ["essere", "avere"] ["Presente"]
    ["1st person singular", "2nd person singular"]

/-- C10: all packages produced by one `build_verb_package_list` run carry
the same subject — the single default sampled when the dataclass was
defined — so any two of them have equal subject fields. -/
theorem c10_same_subject (ds name : String)
    (verbs tenses persons : List String) :
    ∀ vp1 ∈ (build_verb_package_list ds name verbs tenses persons).verb_packages,
    ∀ vp2 ∈ (build_verb_package_list ds name verbs tenses persons).verb_packages,
      vp1.subject = vp2.subject ∧ vp1.subject = ds := by
  have hall : ∀ vp ∈ (build_verb_package_list ds name verbs tenses
      persons).verb_packages, vp.subject = ds := by
    intro vp hvp
    simp only [build_verb_package_list, List.mem_flatMap, List.mem_map]
      at hvp
    obtain ⟨v, _, t, _, p, _, rfl⟩ := hvp
    rfl
  intro vp1 h1 vp2 h2
  rw [hall vp1 h1, hall vp2 h2]
  exact ⟨rfl, rfl⟩

/-- Witness for `c10_same_subject` at a concrete expansion and two
concrete members of it. -/
theorem c10_same_subject_witness :
    (mkVerbPackage "Roman history" "essere" "Presente"
        "1st person singular").subject =
      (mkVerbPackage "Roman history" "essere" "Presente"
        "1st person singular").subject ∧
    (mkVerbPackage "Roman history" "essere" "Presente"
        "1st person singular").subject = "Roman history" :=
  c10_same_subject "Roman history" "deck" ["essere"] ["Presente"]
    ["1st person singular"]
    (mkVerbPackage "Roman history" "essere" "Presente"
      "1st person singular") (by decide)
    (mkVerbPackage "Roman history" "essere" "Presente"
      "1st person singular") (by decide)

/-! ### C4 and C6: `build_note_list`

`build_note_list` maps `create_flashcard_pair` over the packages with
`ThreadPoolExecutor(max_workers=MAX_WORKERS).map`, builds one Anki note
per result with `create_note`, shuffles the notes with `random.shuffle`,
and wraps them in a `NoteList`.  `executor.map` dispatches every item and
yields results in submission order; iterating the results (the `list(...)`
call) re-raises the first exception of any item, discarding the whole
batch.  Its value therefore does not depend on the pool size.
`create_flashcard_pair` itself is a chain of external-service calls, so it
is an opaque parameter `gen`; `gen vp = none` models its retries being
exhausted and the call raising. -/

/-- A genanki note as far as this code observes it: the model id
`998877661` of `MY_CLOZE_MODEL` and the two text fields. -/
structure AnkiNote where
  model_id : Nat
  fields : List String
  deriving DecidableEq, Repr

/-- The `NoteList` dataclass of `data_types.py`. -/
structure NoteList where
  name : String
  notes : List AnkiNote
  deriving Repr

/-- `create_note` of `create_deck.py` lines 62-76. -/
def create_note (vp : VerbPackage) : AnkiNote :=
  { model_id := 998877661, fields := [vp.flashcard_cloze, vp.flashcard_extra] }

/-- `MAX_WORKERS = 20` of `create_deck.py`. -/
def MAX_WORKERS : Nat := 20

/-- `list(ThreadPoolExecutor(max_workers=K).map(f, items))`: results in
submission order; an exception from any item propagates and discards the
batch.  The pool size `K` bounds parallelism only — it does not change
which results come back or their order, so the denotation ignores it. -/
def executorMap (K : Nat) (f : α → Option β) : List α → Option (List β)
  | [] => some []
  | a :: as =>
    match f a, executorMap K f as with
    | some b, some bs => some (b :: bs)
    | _, _ => none

/-- The swap `x[i], x[j] = x[j], x[i]` on a Python list (in-range indices;
`random.shuffle` only produces in-range indices). -/
def swapL (l : List α) (i j : Nat) : List α :=
  match l.get? i, l.get? j with
  | some x, some y => (l.set i y).set j x
  | _, _ => l

/-- CPython `random.shuffle`: `for i in reversed(range(1, len(x))):
j = randbelow(i + 1); x[i], x[j] = x[j], x[i]`.  The random draws are an
oracle `r`; the draw used at index `i` is `r i % (i + 1)`, which ranges
over exactly the values `randbelow(i + 1)` can take. -/
def pyShuffleAux (r : Nat → Nat) : Nat → List α → List α
  | 0, l => l
  | i + 1, l => pyShuffleAux r i (swapL l (i + 1) (r (i + 1) % (i + 2)))

/-- `random.shuffle` on a whole list. -/
def pyShuffle (r : Nat → Nat) (l : List α) : List α :=
  pyShuffleAux r (l.length - 1) l

/-- `build_note_list` of `create_deck.py` lines 92-112, with the pool
size explicit (the source passes `MAX_WORKERS`), the random state of the
shuffle explicit, and `create_flashcard_pair` opaque. -/
def build_note_list (r : Nat → Nat) (K : Nat)
    (gen : VerbPackage → Option VerbPackage)
    (vpl : VerbPackageList) : Option NoteList :=
  (executorMap K gen vpl.verb_packages).map fun final_verb_packages =>
    { name := vpl.name
      notes := pyShuffle r (final_verb_packages.map create_note) }

theorem cons_get_set_perm (l : List α) :
    ∀ (k : Nat) (h : k < l.length) (a : α),
      (l.get ⟨k, h⟩ :: l.set k a).Perm (a :: l) := by
  induction l with
  | nil => intro k h a; exact absurd h (Nat.not_lt_zero k)
  | cons b l ih =>
    intro k h a
    cases k with
    | zero => exact List.Perm.swap a b l
    | succ k =>
      have hk : k < l.length := Nat.lt_of_succ_lt_succ h
      exact (List.Perm.swap b (l.get ⟨k, hk⟩) (l.set k a)).trans
        (((ih k hk a).cons b).trans (List.Perm.swap a b l))

theorem set_set_get_perm (l : List α) :
    ∀ (i j : Nat) (hi : i < l.length) (hj : j < l.length),
      ((l.set i (l.get ⟨j, hj⟩)).set j (l.get ⟨i, hi⟩)).Perm l := by
  induction l with
  | nil => intro i j hi _; exact absurd hi (Nat.not_lt_zero i)
  | cons a l ih =>
    intro i j hi hj
    cases i with
    | zero =>
      cases j with
      | zero => simp
      | succ j =>
        have hj' : j < l.length := Nat.lt_of_succ_lt_succ hj
        simpa using cons_get_set_perm l j hj' a
    | succ i =>
      have hi' : i < l.length := Nat.lt_of_succ_lt_succ hi
      cases j with
      | zero =>
        simpa using cons_get_set_perm l i hi' a
      | succ j =>
        have hj' : j < l.length := Nat.lt_of_succ_lt_succ hj
        simpa using (ih i j hi' hj').cons a

theorem swapL_perm (l : List α) (i j : Nat) : (swapL l i j).Perm l := by
  unfold swapL
  cases hgi : l.get? i with
  | none => exact List.Perm.refl l
  | some x =>
    cases hgj : l.get? j with
    | none => exact List.Perm.refl l
    | some y =>
      have hi : i < l.length := List.get?_eq_some.mp hgi |>.1
      have hj : j < l.length := List.get?_eq_some.mp hgj |>.1
      have hx : x = l.get ⟨i, hi⟩ := (List.get?_eq_some.mp hgi |>.2).symm
      have hy : y = l.get ⟨j, hj⟩ := (List.get?_eq_some.mp hgj |>.2).symm
      subst hx; subst hy
      exact set_set_get_perm l i j hi hj

theorem pyShuffleAux_perm (r : Nat → Nat) :
    ∀ (n : Nat) (l : List α), (pyShuffleAux r n l).Perm l := by
  intro n
  induction n with
  | zero => intro l; exact List.Perm.refl l
  | succ n ih =>
    intro l
    exact (ih _).trans (swapL_perm l (n + 1) (r (n + 1) % (n + 2)))

theorem pyShuffle_perm (r : Nat → Nat) (l : List α) :
    (pyShuffle r l).Perm l :=
  pyShuffleAux_perm r (l.length - 1) l

theorem executorMap_length (K : Nat) (f : α → Option β) :
    ∀ (l : List α) (out : List β), executorMap K f l = some out →
      out.length = l.length := by
  intro l
  induction l with
  | nil =>
    intro out h
    simp only [executorMap, Option.some.injEq] at h
    subst h; rfl
  | cons a as ih =>
    intro out h
    simp only [executorMap] at h
    cases hf : f a with
    | none => rw [hf] at h; simp at h
    | some b =>
      rw [hf] at h
      cases hm : executorMap K f as with
      | none => rw [hm] at h; simp at h
      | some bs =>
        rw [hm] at h
        simp only [Option.some.injEq] at h
        subst h
        simp [ih bs hm]

/-- C4: for every work-item list and pool size, when content generation
succeeds for all items (producing `out`), `build_note_list` returns
exactly one note per input item, and the returned notes are a permutation
of the notes generated from the inputs — nothing dropped, nothing
duplicated, the shuffle only reorders. -/
theorem c4_build_note_list (r : Nat → Nat) (K : Nat)
    (gen : VerbPackage → Option VerbPackage) (vpl : VerbPackageList)
    (out : List VerbPackage)
    (h : executorMap K gen vpl.verb_packages = some out) :
    ∃ nl, build_note_list r K gen vpl = some nl ∧
      nl.name = vpl.name ∧
      nl.notes.length = vpl.verb_packages.length ∧
      nl.notes.Perm (out.map create_note) := by
  refine ⟨{ name := vpl.name, notes := pyShuffle r (out.map create_note) },
    ?_, rfl, ?_, pyShuffle_perm r (out.map create_note)⟩
  · simp [build_note_list, h]
  · rw [(pyShuffle_perm r (out.map create_note)).length_eq,
      List.length_map, executorMap_length K gen vpl.verb_packages out h]

/-- Witness for `c4_build_note_list` at a concrete two-item batch. -/
theorem c4_build_note_list_witness :
    ∃ nl, build_note_list (fun _ => 0) MAX_WORKERS some
        ⟨"deck", [vpEssere, { vpEssere with verb := "avere" }]⟩ = some nl ∧
      nl.name = "deck" ∧
      nl.notes.length =
        (⟨"deck", [vpEssere, { vpEssere with verb := "avere" }]⟩ :
          VerbPackageList).verb_packages.length ∧
      nl.notes.Perm
        ([vpEssere, { vpEssere with verb := "avere" }].map create_note) :=
  c4_build_note_list (fun _ => 0) MAX_WORKERS some
    ⟨"deck", [vpEssere, { vpEssere with verb := "avere" }]⟩
    [vpEssere, { vpEssere with verb := "avere" }] rfl

theorem executorMap_none_of_mem (K : Nat)
    (f : α → Option β) :
    ∀ (l : List α), (∃ a ∈ l, f a = none) → executorMap K f l = none := by
  intro l
  induction l with
  | nil => rintro ⟨a, ha, _⟩; exact absurd ha (List.not_mem_nil a)
  | cons a as ih =>
    rintro ⟨b, hb, hfb⟩
    rcases List.mem_cons.mp hb with rfl | hb'
    · simp [executorMap, hfb]
    · simp only [executorMap, ih ⟨b, hb', hfb⟩]
      cases f a <;> rfl

/-- C6 counterexample: one item whose generation fails fatally makes
`build_note_list` raise — the second item's result is generated but never
returned, so the whole batch aborts. -/
theorem c6_one_failure_aborts_batch :
    build_note_list (fun _ => 0) MAX_WORKERS
      (fun vp => if vp.verb = "fallire" then none else some vp)
      ⟨"deck", [{ vpEssere with verb := "fallire" }, vpEssere]⟩ = none := by
  rfl

/-- C6 (amended): a single work item whose generation exhausts its
retries and raises aborts the whole batch — `build_note_list` propagates
the exception and returns no notes at all, rather than isolating the
failure and returning the remaining items' results. -/
theorem c6_failure_propagates (r : Nat → Nat) (K : Nat)
    (gen : VerbPackage → Option VerbPackage) (vpl : VerbPackageList)
    (h : ∃ vp ∈ vpl.verb_packages, gen vp = none) :
    build_note_list r K gen vpl = none := by
  simp [build_note_list, executorMap_none_of_mem K gen vpl.verb_packages h]

/-- Witness for `c6_failure_propagates` at a concrete failing batch. -/
theorem c6_failure_propagates_witness :
    build_note_list (fun _ => 0) MAX_WORKERS
      (fun vp => if vp.verb = "fallire" then none else some vp)
      ⟨"deck2", [vpEssere, { vpEssere with verb := "fallire" }]⟩ = none :=
  c6_failure_propagates (fun _ => 0) MAX_WORKERS
    (fun vp => if vp.verb = "fallire" then none else some vp)
    ⟨"deck2", [vpEssere, { vpEssere with verb := "fallire" }]⟩
    ⟨{ vpEssere with verb := "fallire" }, by simp, by simp⟩

/-! ### C9: `get_wikipedia_link_for_subject`

A pure string computation: no service client is touched.  Python
`str.replace` scans left to right and replaces each occurrence of the
pattern; we embed that scanner and use the C9 source call
`subject.replace(" ", "_")`.  We take the copy in `utils.py` lines
137-157 (the near-identical copy in `create_content.py` differs only in
dropping the `=` of `href=`, which C9 does not mention). -/

/-- Python `str.replace` with a nonempty pattern: left-to-right scan,
replacing each occurrence and continuing after it.  (With an empty
pattern the scan makes no progress; the sources only use pattern `" "`.) -/
def pyReplace (pat rep : List Char) (s : List Char) : List Char :=
  match s with
  | [] => []
  | c :: cs =>
    if pat ≠ [] ∧ pat.isPrefixOf (c :: cs) then
      rep ++ pyReplace pat rep (cs.drop (pat.length - 1))
    else
      c :: pyReplace pat rep cs
termination_by s.length
decreasing_by
  · simp only [List.length_cons, List.length_drop]
    omega
  · simp

/-- `base_url` of `get_wikipedia_link_for_subject`. -/
def base_url : String := "https://en.wikipedia.org/w/index.php?fulltext=1&search="

/-- `verb_package.subject.replace(" ", "_")` — the search-query parameter
appended to `base_url`. -/
def wikiQuery (subject : String) : String :=
  String.mk (pyReplace [' '] ['_'] subject.data)

/-- `get_wikipedia_link_for_subject` of `utils.py` lines 137-157. -/
def get_wikipedia_link_for_subject (vp : VerbPackage) : String :=
  let final_url := base_url ++ wikiQuery vp.subject
  "\n            <p>For more on this topic see \n            <a href=\"" ++
    final_url ++ "\" target=\"_blank\">Wikipedia</a> </p>\n        "

theorem pyReplace_space_underscore (l : List Char) :
    pyReplace [' '] ['_'] l = l.map fun c => if c = ' ' then '_' else c := by
  induction l with
  | nil => rw [pyReplace]; rfl
  | cons c cs ih =>
    rw [pyReplace]
    by_cases hc : c = ' '
    · subst hc
      simp [List.isPrefixOf, ih]
    · have : ((' ' : Char) == c) = false := by
        simp [hc, Ne.symm hc]
      simp [List.isPrefixOf, this, hc, ih]

/-- C9: the reference link is a deterministic function of the subject
alone (no service call appears in its construction); the search-query
parameter appended to the base URL is exactly the subject with every
space replaced by an underscore; and the subject "Bolognese lasagna"
yields the query parameter "Bolognese_lasagna" and the exact final HTML
fragment. -/
theorem c9_wikipedia_link (vp : VerbPackage) :
    (∀ vp' : VerbPackage, vp'.subject = vp.subject →
      get_wikipedia_link_for_subject vp' = get_wikipedia_link_for_subject vp) ∧
    get_wikipedia_link_for_subject vp =
      "\n            <p>For more on this topic see \n            <a href=\"" ++
        (base_url ++ wikiQuery vp.subject) ++
        "\" target=\"_blank\">Wikipedia</a> </p>\n        " ∧
    (wikiQuery vp.subject).data =
      (vp.subject.data.map fun c => if c = ' ' then '_' else c) ∧
    (vp.subject = "Bolognese lasagna" →
      wikiQuery vp.subject = "Bolognese_lasagna") := by
  refine ⟨?_, rfl, ?_, ?_⟩
  · intro vp' h
    simp [get_wikipedia_link_for_subject, h]
  · exact pyReplace_space_underscore vp.subject.data
  · intro h
    rw [wikiQuery, h]
    rw [show ("Bolognese lasagna" : String).data =
      "Bolognese lasagna".data from rfl]
    rw [pyReplace_space_underscore]
    rfl

/-- Witness for `c9_wikipedia_link` at the spec scenario subject. -/
theorem c9_wikipedia_link_witness :
    (∀ vp' : VerbPackage,
      vp'.subject = ({ vpEssere with subject := "Bolognese lasagna" } :
        VerbPackage).subject →
      get_wikipedia_link_for_subject vp' =
        get_wikipedia_link_for_subject
          { vpEssere with subject := "Bolognese lasagna" }) ∧
    get_wikipedia_link_for_subject
        { vpEssere with subject := "Bolognese lasagna" } =
      "\n            <p>For more on this topic see \n            <a href=\"" ++
        (base_url ++ wikiQuery ({ vpEssere with
          subject := "Bolognese lasagna" } : VerbPackage).subject) ++
        "\" target=\"_blank\">Wikipedia</a> </p>\n        " ∧
    (wikiQuery ({ vpEssere with subject := "Bolognese lasagna" } :
        VerbPackage).subject).data =
      (({ vpEssere with subject := "Bolognese lasagna" } :
        VerbPackage).subject.data.map fun c => if c = ' ' then '_' else c) ∧
    (({ vpEssere with subject := "Bolognese lasagna" } :
        VerbPackage).subject = "Bolognese lasagna" →
      wikiQuery ({ vpEssere with subject := "Bolognese lasagna" } :
        VerbPackage).subject = "Bolognese_lasagna") :=
  c9_wikipedia_link { vpEssere with subject := "Bolognese lasagna" }

/-! ### C5: `create_cloze` and `create_flashcard_cloze`

`create_cloze` runs the spacy pipeline over the generated sentence and
wraps the maximal runs of tokens whose lemma is the target infinitive
(with pos AUX or VERB) in `[[c1::...]]` cloze markers (doubled braces in
the source).  The spacy parse is an opaque oracle
`parse : String → List Token`; a token exposes `text`, `lemma_` and
`pos_` exactly as the source reads them.

Two loops: the first collects `verb_phrases`, the maximal runs of
matching token texts (it also builds `cloze_text`, which the function
never uses afterwards and which we therefore do not model).  If the
sentence ends with a matching token, the final
`verb_phrases.append(current_phrase)` leaves `current_phrase` aliasing
the last phrase, and the second loop then mutates that phrase through
the alias; the embedding carries an explicit `al` flag for this aliasing
(`current_phrase.append` then also extends `verb_phrases[-1]`, and the
length comparison re-reads the mutated phrase).  The second loop indexes
`verb_phrases[phrase_idx]`; an out-of-range index raises `IndexError`,
modelled as `none`. -/

/-- A spacy token as read by `create_cloze`: `token.text`,
`token.lemma_`, `token.pos_`. -/
structure Token where
  text : String
  lemma_ : String
  pos_ : String
  deriving DecidableEq, Repr

/-- `token.lemma_ == infinitive and token.pos_ in ("AUX", "VERB")`. -/
def matchesVerb (inf : String) (t : Token) : Bool :=
  t.lemma_ == inf && (t.pos_ == "AUX" || t.pos_ == "VERB")

/-- The characters of the opening cloze marker the second loop emits. -/
def openMC : List Char := ['{', '{', 'c', '1', ':', ':']

/-- The opening cloze marker as a string. -/
def openMark : String := String.mk openMC

/-- The characters of the closing cloze marker. -/
def closeMC : List Char := ['}', '}']

/-- The closing cloze marker as a string. -/
def closeMark : String := String.mk closeMC

/-- The first loop of `create_cloze`: collect the maximal runs of
matching token texts.  Returns `(verb_phrases, current_phrase)` — the
second component is the residual run still in `current_phrase` when the
loop ends (nonempty exactly when the final token matched, in which case
it aliases the last element of `verb_phrases`). -/
def phrasesGo (inf : String) : List Token → List String →
    List (List String) × List String
  | [], cur => (if cur.isEmpty then [] else [cur], cur)
  | t :: ts, cur =>
    if matchesVerb inf t then
      phrasesGo inf ts (cur ++ [t.text])
    else
      let pr := phrasesGo inf ts []
      ((if cur.isEmpty then [] else [cur]) ++ pr.1, pr.2)

/-- The second loop of `create_cloze`, producing the list of output
pieces later joined with `" ".join`.  State: the (possibly mutated)
`verb_phrases`, `phrase_idx`, `current_phrase`, and whether
`current_phrase` aliases `verb_phrases[-1]` (see section comment).
`none` models the `IndexError` from `verb_phrases[phrase_idx]`. -/
def clozeGo (inf : String) : List Token → List (List String) → Nat →
    List String → Bool → Option (List String)
  | [], _, _, _, _ => some []
  | t :: ts, phrases, idx, cur, al =>
    if matchesVerb inf t then
      match phrases.get? idx with
      | none => none
      | some ph =>
        if t.text ∈ ph then
          let piece := if cur.isEmpty then openMark ++ t.text else t.text
          let cur' := cur ++ [t.text]
          let phrases' :=
            if al then phrases.set (phrases.length - 1) cur' else phrases
          let ph' := if al ∧ idx = phrases.length - 1 then cur' else ph
          if cur'.length = ph'.length then
            (clozeGo inf ts phrases' (idx + 1) [] false).map
              fun rest => piece :: closeMark :: rest
          else
            (clozeGo inf ts phrases' idx cur' al).map fun rest => piece :: rest
        else
          (clozeGo inf ts phrases idx cur al).map fun rest => t.text :: rest
    else
      (clozeGo inf ts phrases idx cur al).map fun rest => t.text :: rest

/-- Python `" ".join(pieces)`. -/
def pyJoinSp : List String → String
  | [] => ""
  | [s] => s
  | s :: rest => s ++ " " ++ pyJoinSp rest

/-- `create_cloze` of `create_content.py` lines 175-224. -/
def create_cloze (parse : String → List Token) (vp : VerbPackage) :
    Option VerbPackage :=
  let toks := parse vp.sentence
  let pr := phrasesGo vp.verb toks []
  (clozeGo vp.verb toks pr.1 0 pr.2 (!pr.2.isEmpty)).map fun pieces =>
    { vp with flashcard_cloze := pyJoinSp pieces }

/-- `create_flashcard_cloze` of `create_content.py` lines 227-243: wrap
the cloze in the fixed HTML frame and append the verb/person/tense hint
line. -/
def create_flashcard_cloze (parse : String → List Token)
    (vp : VerbPackage) : Option VerbPackage :=
  (create_cloze parse vp).map fun vp2 =>
    { vp2 with flashcard_cloze :=
        "\n            <p>" ++ vp2.flashcard_cloze ++
          "</p>\n            <p>" ++ vp2.verb ++ " " ++ vp2.person ++ " " ++
          vp2.tense ++ "</p>\n        " }

/-- Number of occurrences of `pat` in `l` (at any position; positions
inside earlier occurrences count too). -/
def occCount (pat : List Char) : List Char → Nat
  | [] => 0
  | c :: cs => (if pat.isPrefixOf (c :: cs) then 1 else 0) + occCount pat cs

/-- The front text contains exactly one well-formed cloze span wrapping
non-empty text: one occurrence of the opening marker, one of the closing
marker, the closing one after the opening one, with nonempty text
between them. -/
def exactlyOneCloze (s : String) : Prop :=
  ∃ pre mid post : List Char,
    s.data = pre ++ openMC ++ mid ++ closeMC ++ post ∧ mid ≠ [] ∧
      occCount openMC s.data = 1 ∧ occCount closeMC s.data = 1

/-- A parse of "Io mangio la pasta ." — a well-formed sentence that does
not contain the requested verb (the service was asked for "essere" but
used "mangiare"), the unvalidated malformed-output case the spec notes. -/
def parseCex : String → List Token := fun _ =>
  [⟨"Io", "io", "PRON"⟩, ⟨"mangio", "mangiare", "VERB"⟩,
   ⟨"la", "il", "DET"⟩, ⟨"pasta", "pasta", "NOUN"⟩, ⟨".", ".", "PUNCT"⟩]

/-- The work item for the C5 counterexample. -/
def vpCex : VerbPackage :=
  { vpEssere with sentence := "Io mangio la pasta." }

/-- C5 counterexample: when the parsed sentence contains no token whose
lemma is the target verb, `create_flashcard_cloze` returns a front field
with no cloze span at all — not exactly one. -/
theorem c5_no_cloze_span :
    ∃ vp2, create_flashcard_cloze parseCex vpCex = some vp2 ∧
      ¬ exactlyOneCloze vp2.flashcard_cloze := by
  refine ⟨{ vpCex with flashcard_cloze :=
    "\n            <p>Io mangio la pasta .</p>\n            <p>essere 1st person singular Presente</p>\n        " },
    rfl, ?_⟩
  rintro ⟨pre, mid, post, -, -, hopen, -⟩
  have h0 : occCount openMC
      ("\n            <p>Io mangio la pasta .</p>\n            <p>essere 1st person singular Presente</p>\n        " : String).data = 0 := by
    rfl
  rw [h0] at hopen
  exact Nat.zero_ne_one hopen

/-! #### Counting marker occurrences -/

theorem occCount_eq_zero_of_head_not_mem (pat l : List Char) (ch : Char)
    (hch : pat.head? = some ch) (h : ch ∉ l) : occCount pat l = 0 := by
  obtain ⟨pt, rfl⟩ : ∃ pt, pat = ch :: pt := by
    cases pat with
    | nil => simp at hch
    | cons c pt =>
      simp only [List.head?_cons, Option.some.injEq] at hch
      exact ⟨pt, by rw [hch]⟩
  induction l with
  | nil => rfl
  | cons x l ih =>
    have hx : ch ≠ x := fun he => h (he ▸ List.mem_cons_self x l)
    have hl : ch ∉ l := fun hm => h (List.mem_cons_of_mem x hm)
    simp [occCount, List.isPrefixOf, beq_eq_false_iff_ne.mpr hx, ih hl]

theorem occCount_append_of_head_not_mem (pat a b : List Char) (ch : Char)
    (hch : pat.head? = some ch) (ha : ch ∉ a) :
    occCount pat (a ++ b) = occCount pat b := by
  obtain ⟨pt, rfl⟩ : ∃ pt, pat = ch :: pt := by
    cases pat with
    | nil => simp at hch
    | cons c pt =>
      simp only [List.head?_cons, Option.some.injEq] at hch
      exact ⟨pt, by rw [hch]⟩
  induction a with
  | nil => rfl
  | cons x a ih =>
    have hx : ch ≠ x := fun he => ha (he ▸ List.mem_cons_self x a)
    have ha' : ch ∉ a := fun hm => ha (List.mem_cons_of_mem x hm)
    simp [occCount, List.isPrefixOf, beq_eq_false_iff_ne.mpr hx, ih ha']

theorem occCount_openMC (rest : List Char) (h : '{' ∉ rest) :
    occCount openMC (openMC ++ rest) = 1 := by
  have h0 : occCount ['{', '{', 'c', '1', ':', ':'] rest = 0 :=
    occCount_eq_zero_of_head_not_mem _ rest '{' rfl h
  show occCount ['{', '{', 'c', '1', ':', ':']
    ('{' :: '{' :: 'c' :: '1' :: ':' :: ':' :: rest) = 1
  simp [occCount, List.isPrefixOf, h0]

theorem occCount_closeMC (rest : List Char) (h : '}' ∉ rest) :
    occCount closeMC (closeMC ++ rest) = 1 := by
  have h0 : occCount ['}', '}'] rest = 0 :=
    occCount_eq_zero_of_head_not_mem _ rest '}' rfl h
  have hpf2 : List.isPrefixOf ['}'] rest = false := by
    cases rest with
    | nil => rfl
    | cons r rs =>
      have hr : ('}' : Char) ≠ r := fun he => h (he ▸ List.mem_cons_self r rs)
      simp [List.isPrefixOf, beq_eq_false_iff_ne.mpr hr]
  show occCount ['}', '}'] ('}' :: '}' :: rest) = 1
  simp [occCount, List.isPrefixOf, hpf2, h0]

/-! #### `" ".join` -/

theorem str_data_append (a b : String) : (a ++ b).data = a.data ++ b.data :=
  rfl

theorem pyJoinSp_single (s : String) : pyJoinSp [s] = s := rfl

theorem pyJoinSp_cons (s : String) (rest : List String) (h : rest ≠ []) :
    pyJoinSp (s :: rest) = s ++ " " ++ pyJoinSp rest := by
  cases rest with
  | nil => exact absurd rfl h
  | cons r rs => rfl

theorem mem_pyJoinSp (l : List String) (c : Char)
    (hc : c ∈ (pyJoinSp l).data) : c = ' ' ∨ ∃ s ∈ l, c ∈ s.data := by
  induction l with
  | nil => exact absurd hc (List.not_mem_nil c)
  | cons s rest ih =>
    cases rest with
    | nil => exact Or.inr ⟨s, List.mem_cons_self s [], hc⟩
    | cons r rs =>
      rw [pyJoinSp_cons s (r :: rs) (by simp), str_data_append,
        str_data_append] at hc
      rcases List.mem_append.mp hc with hc1 | hc2
      · rcases List.mem_append.mp hc1 with hs | hsp
        · exact Or.inr ⟨s, List.mem_cons_self s _, hs⟩
        · exact Or.inl (List.mem_singleton.mp hsp)
      · rcases ih hc2 with hsp | ⟨s', hs', hcs'⟩
        · exact Or.inl hsp
        · exact Or.inr ⟨s', List.mem_cons_of_mem s hs', hcs'⟩

theorem joinSp_split1 (tl post : List String) (cl : String) :
    ∃ B C : List Char, (pyJoinSp (tl ++ cl :: post)).data =
      B ++ cl.data ++ C ∧
      (∀ c ∈ B, c = ' ' ∨ ∃ s ∈ tl, c ∈ s.data) ∧
      (∀ c ∈ C, c = ' ' ∨ ∃ s ∈ post, c ∈ s.data) := by
  induction tl with
  | nil =>
    cases post with
    | nil =>
      exact ⟨[], [], by simp [pyJoinSp_single], by simp, by simp⟩
    | cons p ps =>
      refine ⟨[], ' ' :: (pyJoinSp (p :: ps)).data, ?_, by simp, ?_⟩
      · rw [List.nil_append, List.nil_append,
          pyJoinSp_cons cl (p :: ps) (by simp), str_data_append,
          str_data_append, List.append_assoc]
        rfl
      · intro c hc
        rcases List.mem_cons.mp hc with rfl | hc'
        · exact Or.inl rfl
        · exact mem_pyJoinSp (p :: ps) c hc'
  | cons s tl' ih =>
    obtain ⟨B', C', hdec, hB', hC'⟩ := ih
    refine ⟨s.data ++ ' ' :: B', C', ?_, ?_, hC'⟩
    · rw [List.cons_append,
        pyJoinSp_cons s (tl' ++ cl :: post) (by simp), str_data_append,
        str_data_append, hdec]
      simp [List.append_assoc]
    · intro c hc
      rcases List.mem_append.mp hc with hs | hc'
      · exact Or.inr ⟨s, List.mem_cons_self s _, hs⟩
      · rcases List.mem_cons.mp hc' with rfl | hcB
        · exact Or.inl rfl
        · rcases hB' c hcB with hsp | ⟨s', hs', hcs'⟩
          · exact Or.inl hsp
          · exact Or.inr ⟨s', List.mem_cons_of_mem s hs', hcs'⟩

theorem joinSp_split3 (pre tl post : List String) (op cl : String) :
    ∃ A B C : List Char,
      (pyJoinSp (pre ++ op :: (tl ++ cl :: post))).data =
        A ++ op.data ++ B ++ cl.data ++ C ∧ B ≠ [] ∧
      (∀ c ∈ A, c = ' ' ∨ ∃ s ∈ pre, c ∈ s.data) ∧
      (∀ c ∈ B, c = ' ' ∨ ∃ s ∈ tl, c ∈ s.data) ∧
      (∀ c ∈ C, c = ' ' ∨ ∃ s ∈ post, c ∈ s.data) := by
  induction pre with
  | nil =>
    obtain ⟨B', C', hdec, hB', hC'⟩ := joinSp_split1 tl post cl
    refine ⟨[], ' ' :: B', C', ?_, by simp, by simp, ?_, hC'⟩
    · rw [List.nil_append,
        pyJoinSp_cons op (tl ++ cl :: post) (by simp), str_data_append,
        str_data_append, hdec]
      simp [List.append_assoc]
    · intro c hc
      rcases List.mem_cons.mp hc with rfl | hcB
      · exact Or.inl rfl
      · exact hB' c hcB
  | cons s pre' ih =>
    obtain ⟨A', B', C', hdec, hBne, hA', hB', hC'⟩ := ih
    refine ⟨s.data ++ ' ' :: A', B', C', ?_, hBne, ?_, hB', hC'⟩
    · rw [List.cons_append,
        pyJoinSp_cons s (pre' ++ op :: (tl ++ cl :: post)) (by simp),
        str_data_append, str_data_append, hdec]
      simp [List.append_assoc]
    · intro c hc
      rcases List.mem_append.mp hc with hs | hc'
      · exact Or.inr ⟨s, List.mem_cons_self s _, hs⟩
      · rcases List.mem_cons.mp hc' with rfl | hcA
        · exact Or.inl rfl
        · rcases hA' c hcA with hsp | ⟨s', hs', hcs'⟩
          · exact Or.inl hsp
          · exact Or.inr ⟨s', List.mem_cons_of_mem s hs', hcs'⟩

/-! #### Simulating the two loops on a single-run parse -/

theorem phrasesGo_nonmatch_skip (inf : String) (A : List Token)
    (hA : ∀ t ∈ A, matchesVerb inf t = false) (rest : List Token) :
    phrasesGo inf (A ++ rest) [] = phrasesGo inf rest [] := by
  induction A with
  | nil => rfl
  | cons t A ih =>
    have ht := hA t (List.mem_cons_self t A)
    have hA' : ∀ u ∈ A, matchesVerb inf u = false :=
      fun u hu => hA u (List.mem_cons_of_mem t hu)
    simp [phrasesGo, ht, ih hA']

theorem phrasesGo_match_acc (inf : String) (R : List Token)
    (hR : ∀ t ∈ R, matchesVerb inf t = true) :
    ∀ (rest : List Token) (cur : List String),
      phrasesGo inf (R ++ rest) cur =
        phrasesGo inf rest (cur ++ R.map Token.text) := by
  induction R with
  | nil => intro rest cur; simp
  | cons t R ih =>
    intro rest cur
    have ht := hR t (List.mem_cons_self t R)
    have hR' : ∀ u ∈ R, matchesVerb inf u = true :=
      fun u hu => hR u (List.mem_cons_of_mem t hu)
    have ih' := ih hR' rest (cur ++ [t.text])
    simp only [List.cons_append, phrasesGo, ht, if_true, List.append_eq]
      at ih' ⊢
    rw [ih']
    simp [List.append_assoc]

theorem phrasesGo_tail_nonmatch (inf : String) (B : List Token)
    (hB : ∀ t ∈ B, matchesVerb inf t = false) :
    phrasesGo inf B [] = ([], []) := by
  induction B with
  | nil => rfl
  | cons t B ih =>
    have ht := hB t (List.mem_cons_self t B)
    have hB' : ∀ u ∈ B, matchesVerb inf u = false :=
      fun u hu => hB u (List.mem_cons_of_mem t hu)
    simp [phrasesGo, ht, ih hB']

theorem verbPhrases_single_run (inf : String) (A : List Token) (rt : Token)
    (rtl B : List Token)
    (hA : ∀ t ∈ A, matchesVerb inf t = false)
    (hR : ∀ t ∈ rt :: rtl, matchesVerb inf t = true)
    (hB : ∀ t ∈ B, matchesVerb inf t = false) (hBne : B ≠ []) :
    phrasesGo inf (A ++ (rt :: rtl) ++ B) [] =
      ([(rt :: rtl).map Token.text], []) := by
  rw [List.append_assoc, phrasesGo_nonmatch_skip inf A hA,
    phrasesGo_match_acc inf (rt :: rtl) hR B []]
  cases B with
  | nil => exact absurd rfl hBne
  | cons b B' =>
    have hb := hB b (List.mem_cons_self b B')
    have hB' : ∀ u ∈ B', matchesVerb inf u = false :=
      fun u hu => hB u (List.mem_cons_of_mem b hu)
    simp [phrasesGo, hb, phrasesGo_tail_nonmatch inf B' hB']

theorem clozeGo_cons_nonmatch (inf : String) (t : Token) (ts : List Token)
    (phrases : List (List String)) (idx : Nat) (cur : List String)
    (al : Bool) (ht : matchesVerb inf t = false) :
    clozeGo inf (t :: ts) phrases idx cur al =
      (clozeGo inf ts phrases idx cur al).map fun r => t.text :: r := by
  simp [clozeGo, ht]

theorem clozeGo_nonmatch (inf : String) (A : List Token)
    (hA : ∀ t ∈ A, matchesVerb inf t = false) (rest : List Token)
    (phrases : List (List String)) (idx : Nat) (cur : List String)
    (al : Bool) :
    clozeGo inf (A ++ rest) phrases idx cur al =
      (clozeGo inf rest phrases idx cur al).map
        fun r => A.map Token.text ++ r := by
  induction A with
  | nil =>
    rw [List.nil_append]
    cases clozeGo inf rest phrases idx cur al <;> rfl
  | cons t A ih =>
    have ht := hA t (List.mem_cons_self t A)
    have hA' : ∀ u ∈ A, matchesVerb inf u = false :=
      fun u hu => hA u (List.mem_cons_of_mem t hu)
    rw [List.cons_append, clozeGo_cons_nonmatch inf t (A ++ rest) phrases
      idx cur al ht, ih hA']
    cases clozeGo inf rest phrases idx cur al <;> simp

theorem clozeGo_end_nonmatch (inf : String) (B : List Token)
    (hB : ∀ t ∈ B, matchesVerb inf t = false)
    (phrases : List (List String)) (idx : Nat) (cur : List String)
    (al : Bool) :
    clozeGo inf B phrases idx cur al = some (B.map Token.text) := by
  induction B with
  | nil => rfl
  | cons t B ih =>
    have ht := hB t (List.mem_cons_self t B)
    have hB' : ∀ u ∈ B, matchesVerb inf u = false :=
      fun u hu => hB u (List.mem_cons_of_mem t hu)
    simp [clozeGo, ht, ih hB']

theorem clozeGo_cons_match_continue (inf : String) (t : Token)
    (ts : List Token) (Rtexts : List String) (cur : List String)
    (ht : matchesVerb inf t = true) (htm : t.text ∈ Rtexts)
    (hcur : cur ≠ []) (hlen : cur.length + 1 ≠ Rtexts.length) :
    clozeGo inf (t :: ts) [Rtexts] 0 cur false =
      (clozeGo inf ts [Rtexts] 0 (cur ++ [t.text]) false).map
        fun r => t.text :: r := by
  have hce : cur.isEmpty = false := by
    cases cur with
    | nil => exact absurd rfl hcur
    | cons a l => rfl
  simp [clozeGo, ht, htm, hce, hlen]

theorem clozeGo_cons_match_close (inf : String) (t : Token)
    (ts : List Token) (Rtexts : List String) (cur : List String)
    (ht : matchesVerb inf t = true) (htm : t.text ∈ Rtexts)
    (hcur : cur ≠ []) (hlen : cur.length + 1 = Rtexts.length) :
    clozeGo inf (t :: ts) [Rtexts] 0 cur false =
      (clozeGo inf ts [Rtexts] 1 [] false).map
        fun r => t.text :: closeMark :: r := by
  have hce : cur.isEmpty = false := by
    cases cur with
    | nil => exact absurd rfl hcur
    | cons a l => rfl
  simp [clozeGo, ht, htm, hce, hlen]

theorem clozeGo_cons_match_open_continue (inf : String) (t : Token)
    (ts : List Token) (Rtexts : List String)
    (ht : matchesVerb inf t = true) (htm : t.text ∈ Rtexts)
    (hlen : 1 ≠ Rtexts.length) :
    clozeGo inf (t :: ts) [Rtexts] 0 [] false =
      (clozeGo inf ts [Rtexts] 0 [t.text] false).map
        fun r => (openMark ++ t.text) :: r := by
  simp [clozeGo, ht, htm, fun h => hlen h]

theorem clozeGo_cons_match_open_close (inf : String) (t : Token)
    (ts : List Token) (Rtexts : List String)
    (ht : matchesVerb inf t = true) (htm : t.text ∈ Rtexts)
    (hlen : 1 = Rtexts.length) :
    clozeGo inf (t :: ts) [Rtexts] 0 [] false =
      (clozeGo inf ts [Rtexts] 1 [] false).map
        fun r => (openMark ++ t.text) :: closeMark :: r := by
  simp [clozeGo, ht, htm, hlen.symm]

theorem clozeGo_run (inf : String) (Rtexts : List String) (B : List Token)
    (hB : ∀ t ∈ B, matchesVerb inf t = false) :
    ∀ (R2 : List Token) (cur : List String),
      (∀ t ∈ R2, matchesVerb inf t = true) →
      (∀ t ∈ R2, t.text ∈ Rtexts) → cur ≠ [] → R2 ≠ [] →
      cur.length + R2.length = Rtexts.length →
      clozeGo inf (R2 ++ B) [Rtexts] 0 cur false =
        some (R2.map Token.text ++ closeMark :: B.map Token.text) := by
  intro R2
  induction R2 with
  | nil => intro cur _ _ _ hne _; exact absurd rfl hne
  | cons t R2' ih =>
    intro cur hmatch hmem hcur _ hlen
    have ht : matchesVerb inf t = true := hmatch t (List.mem_cons_self t R2')
    have htm : t.text ∈ Rtexts := hmem t (List.mem_cons_self t R2')
    cases R2' with
    | nil =>
      have hlen' : cur.length + 1 = Rtexts.length := by
        simpa using hlen
      rw [List.cons_append, List.nil_append,
        clozeGo_cons_match_close inf t B Rtexts cur ht htm hcur hlen',
        clozeGo_end_nonmatch inf B hB [Rtexts] 1 [] false]
      rfl
    | cons t2 R3 =>
      have hlen' : cur.length + 1 ≠ Rtexts.length := by
        simp only [List.length_cons] at hlen
        omega
      rw [List.cons_append,
        clozeGo_cons_match_continue inf t (t2 :: R3 ++ B) Rtexts cur ht htm
          hcur hlen',
        ih (cur ++ [t.text])
          (fun u hu => hmatch u (List.mem_cons_of_mem t hu))
          (fun u hu => hmem u (List.mem_cons_of_mem t hu))
          (by simp) (by simp)
          (by
            simp only [List.length_append, List.length_cons,
              List.length_nil] at hlen ⊢
            omega)]
      rfl

theorem clozeGo_single_run (inf : String) (rt : Token) (rtl B : List Token)
    (hR : ∀ t ∈ rt :: rtl, matchesVerb inf t = true)
    (hB : ∀ t ∈ B, matchesVerb inf t = false) :
    clozeGo inf ((rt :: rtl) ++ B) [(rt :: rtl).map Token.text] 0 [] false =
      some ((openMark ++ rt.text) ::
        (rtl.map Token.text ++ closeMark :: B.map Token.text)) := by
  have ht : matchesVerb inf rt = true := hR rt (List.mem_cons_self rt rtl)
  have htm : rt.text ∈ (rt :: rtl).map Token.text := by simp
  cases rtl with
  | nil =>
    rw [List.cons_append, List.nil_append,
      clozeGo_cons_match_open_close inf rt B ([rt].map Token.text) ht htm
        (by simp),
      clozeGo_end_nonmatch inf B hB _ 1 [] false]
    rfl
  | cons t2 R3 =>
    rw [List.cons_append,
      clozeGo_cons_match_open_continue inf rt (t2 :: R3 ++ B)
        ((rt :: t2 :: R3).map Token.text) ht htm
        (by simp only [List.length_map, List.length_cons]; omega),
      clozeGo_run inf ((rt :: t2 :: R3).map Token.text) B hB (t2 :: R3)
        [rt.text]
        (fun u hu => hR u (List.mem_cons_of_mem rt hu))
        (fun u hu => by
          simp only [List.map_cons, List.mem_cons]
          rcases List.mem_cons.mp hu with rfl | hu'
          · exact Or.inr (Or.inl rfl)
          · exact Or.inr (Or.inr (List.mem_map_of_mem Token.text hu')))
        (by simp) (by simp)
        (by simp only [List.length_map, List.length_cons, List.length_nil]
            omega)]
    rfl

theorem create_cloze_single_run (parse : String → List Token)
    (vp : VerbPackage) (A : List Token) (rt : Token) (rtl B : List Token)
    (hparse : parse vp.sentence = A ++ (rt :: rtl) ++ B)
    (hA : ∀ t ∈ A, matchesVerb vp.verb t = false)
    (hR : ∀ t ∈ rt :: rtl, matchesVerb vp.verb t = true)
    (hB : ∀ t ∈ B, matchesVerb vp.verb t = false) (hBne : B ≠ []) :
    create_cloze parse vp = some { vp with
      flashcard_cloze := pyJoinSp (A.map Token.text ++
        (openMark ++ rt.text) ::
        (rtl.map Token.text ++ closeMark :: B.map Token.text)) } := by
  simp only [create_cloze, hparse,
    verbPhrases_single_run vp.verb A rt rtl B hA hR hB hBne,
    List.isEmpty_nil, Bool.not_true]
  rw [List.append_assoc,
    clozeGo_nonmatch vp.verb A hA ((rt :: rtl) ++ B)
      [(rt :: rtl).map Token.text] 0 [] false,
    clozeGo_single_run vp.verb rt rtl B hR hB]
  rfl

/-- A string free of both brace characters (as real spacy tokens of an
Italian sentence, and real verb/person/tense names, are). -/
def braceFree (s : String) : Prop := '{' ∉ s.data ∧ '}' ∉ s.data

instance decBraceFree (s : String) : Decidable (braceFree s) :=
  inferInstanceAs (Decidable ('{' ∉ s.data ∧ '}' ∉ s.data))

theorem no_brace_of_cond (ts : List Token) (cs : List Char)
    (hm : ∀ c ∈ cs, c = ' ' ∨ ∃ s ∈ ts.map Token.text, c ∈ s.data)
    (hbr : ∀ t ∈ ts, braceFree t.text) : '{' ∉ cs ∧ '}' ∉ cs := by
  constructor <;> intro hc
  · rcases hm _ hc with he | ⟨s, hs, hcs⟩
    · exact absurd he (by decide)
    · obtain ⟨t, htm, rfl⟩ := List.mem_map.mp hs
      exact (hbr t htm).1 hcs
  · rcases hm _ hc with he | ⟨s, hs, hcs⟩
    · exact absurd he (by decide)
    · obtain ⟨t, htm, rfl⟩ := List.mem_map.mp hs
      exact (hbr t htm).2 hcs

theorem not_mem_append_of (c : Char) (a b : List Char) (ha : c ∉ a)
    (hb : c ∉ b) : c ∉ a ++ b :=
  fun h => (List.mem_append.mp h).elim ha hb

theorem exactlyOneCloze_build (s : String) (P Q A' B' C' rtd : List Char)
    (hdata : s.data = P ++ (A' ++ ((openMC ++ rtd) ++ B' ++ closeMC ++ C')) ++ Q)
    (hBne : B' ≠ [])
    (hP : '{' ∉ P ∧ '}' ∉ P) (hQ : '{' ∉ Q ∧ '}' ∉ Q)
    (hA : '{' ∉ A' ∧ '}' ∉ A') (hBr : '{' ∉ B' ∧ '}' ∉ B')
    (hC : '{' ∉ C' ∧ '}' ∉ C') (hrtd : '{' ∉ rtd ∧ '}' ∉ rtd) :
    exactlyOneCloze s := by
  have e1 : P ++ (A' ++ ((openMC ++ rtd) ++ B' ++ closeMC ++ C')) ++ Q =
      (P ++ A') ++ (openMC ++ (rtd ++ (B' ++ (closeMC ++ (C' ++ Q))))) := by
    simp [List.append_assoc]
  have e2 : P ++ (A' ++ ((openMC ++ rtd) ++ B' ++ closeMC ++ C')) ++ Q =
      (P ++ (A' ++ (openMC ++ (rtd ++ B')))) ++ (closeMC ++ (C' ++ Q)) := by
    simp [List.append_assoc]
  refine ⟨P ++ A', rtd ++ B', C' ++ Q, ?_, ?_, ?_, ?_⟩
  · rw [hdata]
    simp [List.append_assoc]
  · simp [hBne]
  · rw [hdata, e1,
      occCount_append_of_head_not_mem openMC (P ++ A') _ '{' rfl
        (not_mem_append_of '{' P A' hP.1 hA.1)]
    exact occCount_openMC _
      (not_mem_append_of '{' rtd _ hrtd.1
        (not_mem_append_of '{' B' _ hBr.1
          (not_mem_append_of '{' closeMC _ (by decide)
            (not_mem_append_of '{' C' Q hC.1 hQ.1))))
  · rw [hdata, e2,
      occCount_append_of_head_not_mem closeMC _ _ '}' rfl
        (not_mem_append_of '}' P _ hP.2
          (not_mem_append_of '}' A' _ hA.2
            (not_mem_append_of '}' openMC _ (by decide)
              (not_mem_append_of '}' rtd B' hrtd.2 hBr.2))))]
    exact occCount_closeMC _ (not_mem_append_of '}' C' Q hC.2 hQ.2)

/-- C5 (amended): whenever the parsed sentence consists of exactly one
maximal nonempty run of tokens matching the verb (lemma = infinitive,
pos AUX or VERB), with at least one non-matching token after the run (as
when the sentence ends with punctuation), and no token text nor the
verb/person/tense strings contain brace characters, the front field
produced by `create_flashcard_cloze` contains exactly one well-formed
cloze span wrapping non-empty text. -/
theorem c5_front_exactly_one_cloze (parse : String → List Token)
    (vp : VerbPackage) (A : List Token) (rt : Token) (rtl B : List Token)
    (hparse : parse vp.sentence = A ++ (rt :: rtl) ++ B)
    (hA : ∀ t ∈ A, matchesVerb vp.verb t = false)
    (hR : ∀ t ∈ rt :: rtl, matchesVerb vp.verb t = true)
    (hB : ∀ t ∈ B, matchesVerb vp.verb t = false)
    (hBne : B ≠ [])
    (hbrA : ∀ t ∈ A, braceFree t.text)
    (hbrR : ∀ t ∈ rt :: rtl, braceFree t.text)
    (hbrB : ∀ t ∈ B, braceFree t.text)
    (hv : braceFree vp.verb) (hp : braceFree vp.person)
    (htn : braceFree vp.tense) :
    ∃ vp2, create_flashcard_cloze parse vp = some vp2 ∧
      exactlyOneCloze vp2.flashcard_cloze := by
  have hcc := create_cloze_single_run parse vp A rt rtl B hparse hA hR hB hBne
  refine ⟨{ vp with
    flashcard_cloze := "\n            <p>" ++
      pyJoinSp (A.map Token.text ++ (openMark ++ rt.text) ::
        (rtl.map Token.text ++ closeMark :: B.map Token.text)) ++
      "</p>\n            <p>" ++ vp.verb ++ " " ++ vp.person ++ " " ++
      vp.tense ++ "</p>\n        " }, ?_, ?_⟩
  · simp only [create_flashcard_cloze, hcc, Option.map_some']
  · obtain ⟨A', B', C', hdec, hBne', hmA, hmB, hmC⟩ :=
      joinSp_split3 (A.map Token.text) (rtl.map Token.text)
        (B.map Token.text) (openMark ++ rt.text) closeMark
    have hop : (openMark ++ rt.text).data = openMC ++ rt.text.data := rfl
    have hcl : closeMark.data = closeMC := rfl
    have hA'b := no_brace_of_cond A A' hmA hbrA
    have hB'b := no_brace_of_cond rtl B' hmB
      (fun t htm => hbrR t (List.mem_cons_of_mem rt htm))
    have hC'b := no_brace_of_cond B C' hmC hbrB
    have hrtb : braceFree rt.text := hbrR rt (List.mem_cons_self rt rtl)
    refine exactlyOneCloze_build _
      ("\n            <p>" : String).data
      (("</p>\n            <p>" : String).data ++ (vp.verb.data ++
        ((" " : String).data ++ (vp.person.data ++ ((" " : String).data ++
          (vp.tense.data ++ ("</p>\n        " : String).data))))))
      A' B' C' rt.text.data ?_ hBne' (by constructor <;> decide) ?_
      hA'b hB'b hC'b ⟨hrtb.1, hrtb.2⟩
    · show (String.data _) = _
      simp only [str_data_append]
      rw [hdec, hop, hcl]
      simp [List.append_assoc]
    · constructor
      · refine not_mem_append_of '{' _ _ (by decide)
          (not_mem_append_of '{' _ _ hv.1
            (not_mem_append_of '{' _ _ (by decide)
              (not_mem_append_of '{' _ _ hp.1
                (not_mem_append_of '{' _ _ (by decide)
                  (not_mem_append_of '{' _ _ htn.1 (by decide))))))
      · refine not_mem_append_of '}' _ _ (by decide)
          (not_mem_append_of '}' _ _ hv.2
            (not_mem_append_of '}' _ _ (by decide)
              (not_mem_append_of '}' _ _ hp.2
                (not_mem_append_of '}' _ _ (by decide)
                  (not_mem_append_of '}' _ _ htn.2 (by decide))))))

/-- A parse of "Io sono felice ." — the verb essere appears as the single
one-token run "sono", followed by non-matching tokens. -/
def parseWit : String → List Token := fun _ =>
  [⟨"Io", "io", "PRON"⟩, ⟨"sono", "essere", "AUX"⟩,
   ⟨"felice", "felice", "ADJ"⟩, ⟨".", ".", "PUNCT"⟩]

/-- The work item for the C5 witness. -/
def vpWit : VerbPackage :=
  { vpEssere with sentence := "Io sono felice." }

/-- Witness for `c5_front_exactly_one_cloze` at a concrete parse. -/
theorem c5_front_exactly_one_cloze_witness :
    ∃ vp2, create_flashcard_cloze parseWit vpWit = some vp2 ∧
      exactlyOneCloze vp2.flashcard_cloze :=
  c5_front_exactly_one_cloze parseWit vpWit
    [⟨"Io", "io", "PRON"⟩] ⟨"sono", "essere", "AUX"⟩ []
    [⟨"felice", "felice", "ADJ"⟩, ⟨".", ".", "PUNCT"⟩]
    rfl (by decide) (by decide) (by decide) (by decide)
    (by decide) (by decide) (by decide) (by decide) (by decide) (by decide)

end AnkiVerbs
